import Mathlib

/-!
Verification of the honestbt specification.

The repository ships only packaging metadata (`src/setup.py`); the
`honestbt` script named there is not part of the visible tree.  The
write/verify engine described by the specification (Block Addressing
Codec, Pattern Generator, Scan Driver, Capacity Prober, Result
Aggregator) is therefore modelled here from the specification's own
words, and the packaging metadata is embedded directly from
`src/setup.py`.

Bytes are modelled as natural numbers (values below 256 are produced by
every constructor; consumers are total on all of `Nat`), payloads as
lists of bytes, and machine integers as `Nat` with explicit reductions
modulo powers of two where width matters.
-/

namespace HonestBT

/-- Little-endian byte encoding of `n` into exactly `w` bytes.
Supports the codec's fixed-endianness embedding of the seed, the
offset and the checksum into the payload. -/
def bytesOfNat : Nat → Nat → List Nat
  | 0, _ => []
  | w + 1, n => n % 256 :: bytesOfNat w (n / 256)

/-- Little-endian byte decoding, inverse of `bytesOfNat` below the
width bound. -/
def natOfBytes : List Nat → Nat
  | [] => 0
  | b :: bs => b + 256 * natOfBytes bs

/-- Modelled from the spec: one 64-bit mixing step of the deterministic
pseudo-random filler stream keyed by seed and offset (§4.1: "a
deterministic pseudo-random stream keyed by `(seed, offset)`"). -/
def mix (a b : Nat) : Nat :=
  (a * 6364136223846793005 + b * 1442695040888963407 + 2654435761) % 2 ^ 64

/-- Modelled from the spec: byte `i` of the filler stream for a block,
keyed by the run seed and the block's logical offset. -/
def fillerByte (seed off i : Nat) : Nat :=
  mix (mix seed off) i % 256

/-- Modelled from the spec: 32-bit checksum covering seed, offset and
filler bytes of a payload (§4.1; the concrete hash is left open by the
spec, any deterministic choice with fixed width fits the contract). -/
def checksum (l : List Nat) : Nat :=
  l.foldl (fun a b => (a * 131 + b) % 2 ^ 32) 0

/-- The error taxonomy of the codec's decode operation (§4.1). -/
inductive DecodeError where
  | CorruptPayload
deriving DecidableEq, Repr

/-- Modelled from the spec (§4.1 `encode`): the payload embeds the run
seed (8 bytes, little-endian), the logical offset (8 bytes,
little-endian), filler bytes from the keyed pseudo-random stream, and
finally a 4-byte checksum covering everything before it.  The filler is
sized so the whole payload has exactly `blockLen` bytes whenever
`blockLen ≥ 20` (block sizes are at least 512 bytes per §3); a short
final block below that is served by the codec's truncated payload
`truncEncode`, which the Pattern Generator selects for it. -/
def encode (off seed blockLen : Nat) : List Nat :=
  let body := bytesOfNat 8 seed ++
    (bytesOfNat 8 off ++ (List.range (blockLen - 20)).map (fillerByte seed off))
  body ++ bytesOfNat 4 (checksum body)

/-- The offset embedded in a payload: bytes 8..15, little-endian. -/
def embeddedOffset (p : List Nat) : Nat :=
  natOfBytes ((p.drop 8).take 8)

/-- The checksum stored in a payload's final 4 bytes. -/
def storedChecksum (p : List Nat) : Nat :=
  natOfBytes (p.drop (p.length - 4))

/-- The checksum recomputed over the payload bytes it is meant to
cover (everything before the stored checksum). -/
def bodyChecksum (p : List Nat) : Nat :=
  checksum (p.take (p.length - 4))

/-- Modelled from the spec (§4.1 `decode`): recompute the checksum over
the received bytes; on mismatch report `CorruptPayload`, on match
extract and return the embedded offset.  The run seed and block size
are part of the documented interface; checksum validation and offset
extraction read everything they need from the payload itself. -/
def decode (p : List Nat) (seed blockLen : Nat) : Except DecodeError Nat :=
  if bodyChecksum p = storedChecksum p then
    .ok (embeddedOffset p)
  else
    .error .CorruptPayload

/-- Modelled from the spec (§4.1 edge case, §9): the body of the
codec's truncated payload for a short final block — as much of the
seed/offset/filler layout as fits before the checksum, given the
block's actual byte length. -/
def truncBody (off seed blockLen : Nat) : List Nat :=
  (bytesOfNat 8 seed ++
    (bytesOfNat 8 off ++
      (List.range (blockLen - 20)).map (fillerByte seed off))).take
    (blockLen - 4)

/-- Modelled from the spec (§4.1 edge case, §9): the codec's truncated
payload for a short final block: the truncated body followed by a
checksum computed over exactly the bytes present before it (the
checksum field itself is cut when fewer than four bytes remain).  The
payload has exactly `blockLen` bytes, so it never extends past the
device's bounds; for `blockLen ≥ 20` it coincides with `encode`. -/
def truncEncode (off seed blockLen : Nat) : List Nat :=
  truncBody off seed blockLen ++
    (bytesOfNat 4 (checksum (truncBody off seed blockLen))).take
    (min 4 blockLen)

/-- Per-block verification outcome (§3 data model). -/
inductive BlockOutcome where
  | Honest
  | Aliased (target : Nat)
  | Corrupted
  | IoError
deriving DecidableEq, Repr

/-- Result of one positioned write at the device layer (§6): success,
a recoverable per-operation failure, or the handle becoming unusable. -/
inductive WriteRes (σ : Type) where
  | ok (s : σ)
  | ioErr (s : σ)
  | fatal

/-- Result of one positioned read at the device layer (§6). -/
inductive ReadRes (σ : Type) where
  | ok (s : σ) (data : List Nat)
  | ioErr (s : σ)
  | fatal

/-- Modelled from the spec (§6): the device access collaborator, as a
pure state-passing interface over an abstract device state `σ`. -/
structure Device (σ : Type) where
  writeAt : σ → Nat → List Nat → WriteRes σ
  readAt : σ → Nat → Nat → ReadRes σ

/-- Length of the block at offset `o` on a device of `size` bytes with
block size `bs`: full blocks everywhere, a truncated final block when
the size is not a multiple of the block size (§4.1 edge case, §9). -/
def blockLen (size bs o : Nat) : Nat :=
  min bs (size - o)

/-- The logical block offsets of a device: `0, bs, ...` up to the
nominal size, including a final short block when size is not a
multiple of `bs`. -/
def blockOffsets (size bs : Nat) : List Nat :=
  (List.range ((size + bs - 1) / bs)).map (fun i => i * bs)

/-- Modelled from the spec (§4.2 Pattern Generator, §4.1 edge case):
the deterministic payload for a block, delegating to the codec,
stateless.  A full block (one with at least a whole block size left
before the device's end) uses `encode` at its block length; the short
final block of a device whose size is not a multiple of the block
size uses the codec's truncated payload, so nothing is ever written
past the device's bounds. -/
def pattern (seed size bs o : Nat) : List Nat :=
  if size - o < bs then truncEncode o seed (blockLen size bs o)
  else encode o seed (blockLen size bs o)

/-- Modelled from the spec (§4.3 Verifying): the Scan Driver's
classification of one read-back block.  `written` is the set of
offsets written in this run, `expected` the offset being verified, and
the read result is `none` when the device-layer read failed. -/
def classify (written : List Nat) (seed bs expected : Nat)
    (r : Option (List Nat)) : BlockOutcome :=
  match r with
  | none => .IoError
  | some p =>
    match decode p seed bs with
    | .error _ => .Corrupted
    | .ok o =>
      if o = expected then .Honest
      else if o ∈ written then .Aliased o
      else .Corrupted

/-- Accumulated result of the write phase: final device state, offsets
written successfully, offsets whose write failed, and whether the
phase ran to completion (false exactly when the handle died). -/
structure WritePhase (σ : Type) where
  state : σ
  okOffs : List Nat
  errOffs : List Nat
  completed : Bool

/-- Modelled from the spec (§4.3 Writing): iterate the offsets in
order, generate each block's pattern and issue a positioned write; a
per-block `IoError` is recorded and the pass continues, a fatal device
failure aborts the pass with the work recorded so far. -/
def writePass (dev : Device σ) (seed bs size : Nat) :
    σ → List Nat → WritePhase σ
  | s, [] => ⟨s, [], [], true⟩
  | s, o :: rest =>
    match dev.writeAt s o (pattern seed size bs o) with
    | .ok s' =>
      let r := writePass dev seed bs size s' rest
      ⟨r.state, o :: r.okOffs, r.errOffs, r.completed⟩
    | .ioErr s' =>
      let r := writePass dev seed bs size s' rest
      ⟨r.state, r.okOffs, o :: r.errOffs, r.completed⟩
    | .fatal => ⟨s, [], [o], false⟩

/-- Accumulated result of the verify phase. -/
structure VerifyPhase (σ : Type) where
  state : σ
  outs : List (Nat × BlockOutcome)
  completed : Bool

/-- Modelled from the spec (§4.3 Verifying): re-read every block in
the same order and classify it; a failed read is recorded as an
`IoError` outcome and the pass continues, a fatal device failure
aborts with the outcomes recorded so far. -/
def verifyPass (dev : Device σ) (written : List Nat) (seed bs size : Nat) :
    σ → List Nat → VerifyPhase σ
  | s, [] => ⟨s, [], true⟩
  | s, o :: rest =>
    match dev.readAt s o (blockLen size bs o) with
    | .ok s' data =>
      let r := verifyPass dev written seed bs size s' rest
      ⟨r.state, (o, classify written seed bs o (some data)) :: r.outs, r.completed⟩
    | .ioErr s' =>
      let r := verifyPass dev written seed bs size s' rest
      ⟨r.state, (o, classify written seed bs o none) :: r.outs, r.completed⟩
    | .fatal => ⟨s, [], false⟩

/-- The offsets classified `Aliased`, with their aliasing targets. -/
def aliasedOf (outs : List (Nat × BlockOutcome)) : List (Nat × Nat) :=
  outs.filterMap (fun x =>
    match x.2 with
    | .Aliased t => some (x.1, t)
    | _ => none)

/-- The offsets classified `Corrupted`. -/
def corruptedOf (outs : List (Nat × BlockOutcome)) : List Nat :=
  outs.filterMap (fun x =>
    match x.2 with
    | .Corrupted => some x.1
    | _ => none)

/-- The offsets classified `IoError` during verification. -/
def ioErrsOf (outs : List (Nat × BlockOutcome)) : List Nat :=
  outs.filterMap (fun x =>
    match x.2 with
    | .IoError => some x.1
    | _ => none)

/-- Modelled from the spec (§3, §4.5): the Report, an aggregate of all
per-block outcomes plus the derived verdict. -/
structure Report where
  outcomes : List (Nat × BlockOutcome)
  honestCount : Nat
  aliasedList : List (Nat × Nat)
  corruptedList : List Nat
  ioErrorList : List Nat
  completed : Bool
  trueCapacity : Nat
deriving DecidableEq, Repr

/-- Modelled from the spec (§4.5 Result Aggregator, §4.4 tie-break):
pure accumulation of outcomes into a Report; the true-capacity verdict
is the nominal size when no aliasing was observed, and otherwise the
Capacity Prober's verdict. -/
def aggregate (outs : List (Nat × BlockOutcome)) (writeErrs : List Nat)
    (completed : Bool) (nominal proberCap : Nat) : Report :=
  { outcomes := outs
    honestCount := (outs.filter (fun x => x.2 = BlockOutcome.Honest)).length
    aliasedList := aliasedOf outs
    corruptedList := corruptedOf outs
    ioErrorList := writeErrs ++ ioErrsOf outs
    completed := completed
    trueCapacity := if (aliasedOf outs).isEmpty then nominal else proberCap }

/-- Scan Driver state machine states (§4.3). -/
inductive ScanState where
  | Idle
  | Writing
  | Verifying
  | Done
  | Failed
deriving DecidableEq, Repr

/-- Final result of a full run: device state, terminal driver state
and the (possibly partial) Report. -/
structure RunOutcome (σ : Type) where
  finalState : σ
  phase : ScanState
  report : Report

/-- Modelled from the spec (§4.3): the two-phase write-then-verify
scan.  A fatal failure in either phase ends in `Failed` but still
produces a partial Report; otherwise the run ends in `Done`. -/
def runScan (dev : Device σ) (seed bs size proberCap : Nat) (s : σ) :
    RunOutcome σ :=
  let offs := blockOffsets size bs
  let w := writePass dev seed bs size s offs
  if w.completed then
    let v := verifyPass dev w.okOffs seed bs size w.state offs
    ⟨v.state, if v.completed then ScanState.Done else ScanState.Failed,
      aggregate v.outs w.errOffs v.completed size proberCap⟩
  else
    ⟨w.state, ScanState.Failed, aggregate [] w.errOffs false size proberCap⟩

/-- Modelled from the spec (§6 CLI surface): verify-only mode,
re-checking a previously written device without re-writing it. -/
def runVerifyOnly (dev : Device σ) (seed bs size proberCap : Nat) (s : σ) :
    σ × Report :=
  let offs := blockOffsets size bs
  let v := verifyPass dev offs seed bs size s offs
  (v.state, aggregate v.outs [] v.completed size proberCap)

/-- Modelled from the spec (§4.4, §9): the Capacity Prober's binary
search as a strategy over a probe capability; each probe is
destructive only to the state it threads through.  Bisects `[lo, hi]`
for the lowest block index at which probes report aliasing. -/
def probeSearch (probe : σ → Nat → Bool × σ) (s : σ) (lo hi : Nat) :
    Nat × σ :=
  if lo < hi then
    if (probe s ((lo + hi) / 2)).1 then
      probeSearch probe (probe s ((lo + hi) / 2)).2 lo ((lo + hi) / 2)
    else
      probeSearch probe (probe s ((lo + hi) / 2)).2 ((lo + hi) / 2 + 1) hi
  else (lo, s)
termination_by hi - lo
decreasing_by
  all_goals omega

/-- Modelled from the spec (§4.4): one probe at candidate block
boundary `b` — re-write block `b` with a fresh pattern instance,
re-read it and report whether it aliases (fails to read back as its
own offset). -/
def probeBlock (dev : Device σ) (probeSeed bs : Nat) (s : σ) (b : Nat) :
    Bool × σ :=
  match dev.writeAt s (b * bs) (encode (b * bs) probeSeed bs) with
  | .ok s' =>
    match dev.readAt s' (b * bs) bs with
    | .ok s'' data =>
      match decode data probeSeed bs with
      | .ok off => (decide ¬off = b * bs, s'')
      | .error _ => (true, s'')
    | .ioErr s'' => (true, s'')
    | .fatal => (true, s')
  | .ioErr s' => (true, s')
  | .fatal => (true, s)

/-- Modelled from the spec (§4.4): the Capacity Prober — bisect block
indices `[0, nBlocks)` for the lowest block at which aliasing begins
and report that boundary, scaled back to bytes, as the true usable
capacity. -/
def capacityProber (dev : Device σ) (probeSeed bs nBlocks : Nat) (s : σ) :
    Nat :=
  (probeSearch (probeBlock dev probeSeed bs) s 0 nBlocks).1 * bs

/-- Modelled from the spec (§8): the simulated capacity-lying device
of true capacity `trueBlocks` blocks.  The address decoder wraps block
addresses modulo the true capacity back to the start of the device on
read, and a write addressed at or beyond the true capacity is
acknowledged without durable effect, so a read at or beyond the true
capacity observes the content belonging to its wrapped lower
address. -/
def wrapDevice (trueBlocks bs : Nat) : Device (Nat → Option (List Nat)) where
  writeAt := fun s o data =>
    if o / bs < trueBlocks then
      .ok (fun p => if p = o / bs then some data else s p)
    else
      .ok s
  readAt := fun s o _ =>
    match s (o / bs % trueBlocks) with
    | some data => .ok s data
    | none => .ioErr s

/-- An honest device (glossary): a per-block store addressed without
wrapping; reads are non-destructive and return exactly what was
written. -/
def honestDevice (bs : Nat) : Device (Nat → Option (List Nat)) where
  writeAt := fun s o data =>
    .ok (fun p => if p = o / bs then some data else s p)
  readAt := fun s o _ =>
    match s (o / bs) with
    | some data => .ok s data
    | none => .ioErr s

/-- A device state is honest and untouched for a run when reading any
block of the run returns that block's expected pattern and leaves the
state unchanged. -/
def HonestOn (dev : Device σ) (seed bs size : Nat) (s : σ) : Prop :=
  ∀ o ∈ blockOffsets size bs,
    dev.readAt s o (blockLen size bs o) = .ok s (pattern seed size bs o)

instance : DecidableEq (Except DecodeError Nat) := fun a b =>
  match a, b with
  | .error e1, .error e2 => isTrue (by cases e1; cases e2; rfl)
  | .ok x, .ok y =>
    if h : x = y then isTrue (by rw [h]) else isFalse (by simp [h])
  | .error _, .ok _ => isFalse (by simp)
  | .ok _, .error _ => isFalse (by simp)

/-- A device for the C6 witness: both writes succeed, the block at
offset 0 reads back honestly and the block at offset 20 reads back as
unrelated bytes (a corruption), so the Report has a `Corrupted`
finding but no aliasing. -/
def corruptTailDevice : Device Unit where
  writeAt := fun _ _ _ => .ok ()
  readAt := fun _ o _ =>
    if o = 0 then .ok () (encode 0 1 20) else .ok () (List.replicate 20 1)

/-- Device for the C7 witness: the state selects a scenario.  States
0 and 1 are the write pass of a healthy run (both writes succeed);
state 2 reads back the first block honestly and state 3 is a dead
handle (fatal read).  State 10 gives recoverable per-block errors on
both write and read; state 11 reads back unrelated bytes (a corrupted
block); state 12 reads back the pattern of a different offset (an
aliased block). -/
def stagedDevice : Device Nat where
  writeAt := fun s _ _ =>
    if s = 0 then .ok 1
    else if s = 1 then .ok 2
    else if s = 10 then .ioErr 10
    else .fatal
  readAt := fun s _ _ =>
    if s = 2 then .ok 3 (encode 0 1 20)
    else if s = 10 then .ioErr 10
    else if s = 11 then .ok 11 (List.replicate 20 1)
    else if s = 12 then .ok 12 (encode 0 1 20)
    else .fatal

/-- Pre-written honest device state for the C8 witness: two blocks
holding exactly the run's expected patterns. -/
def honestState : Nat → Option (List Nat) := fun p =>
  if p = 0 then some (encode 0 3 20)
  else if p = 1 then some (encode 20 3 20)
  else none

/-- The state invariant the Capacity Prober relies on against the
capacity-lying device: every physical cell below the true capacity
holds a payload that decodes to that cell's own byte offset. -/
def ProbeInv (Cb bs probeSeed : Nat) (s : Nat → Option (List Nat)) : Prop :=
  ∀ p, p < Cb → ∃ d, s p = some d ∧ decode d probeSeed bs = .ok (p * bs)

/-- The keyword arguments a `setuptools.setup` call can pass, as far
as honestbt's packaging uses them, together with the fields it leaves
undeclared (which setuptools defaults to empty). -/
structure SetupArgs where
  name : String
  description : String
  license : String
  platforms : List String
  author : String
  authorEmail : String
  scripts : List String
  packages : List String
  pyModules : List String
  entryPoints : List String
deriving DecidableEq, Repr

/-- The `setup(...)` call of `src/setup.py` (lines 6-14): distribution
metadata plus `scripts=["honestbt"]`; `packages`, `py_modules` and
`entry_points` are not passed and stay at their empty defaults. -/
def honestbtSetup : SetupArgs where
  name := "honestbt"
  description := "Destructive tester which detects dishonest block devices"
  license := "GPLv2+"
  platforms := ["Unix"]
  author := "Ryan Finnie"
  authorEmail := "ryan@finnie.org"
  scripts := ["honestbt"]
  packages := []
  pyModules := []
  entryPoints := []

/-- The files present under the repository's `src/` tree. -/
def srcFiles : List String := ["setup.py"]

theorem length_bytesOfNat (w n : Nat) : (bytesOfNat w n).length = w := by
  induction w generalizing n with
  | zero => rfl
  | succ w ih => simp [bytesOfNat, ih]

theorem natOfBytes_bytesOfNat (w n : Nat) :
    natOfBytes (bytesOfNat w n) = n % 256 ^ w := by
  induction w generalizing n with
  | zero => simp [bytesOfNat, natOfBytes, Nat.mod_one]
  | succ w ih =>
    have h : (256 : Nat) ^ (w + 1) = 256 * 256 ^ w := by ring
    rw [bytesOfNat, natOfBytes, ih, h, Nat.mod_mul]

theorem checksum_lt (l : List Nat) : checksum l < 2 ^ 32 := by
  have h : ∀ (l : List Nat) (a : Nat), a < 2 ^ 32 →
      l.foldl (fun a b => (a * 131 + b) % 2 ^ 32) a < 2 ^ 32 := by
    intro l
    induction l with
    | nil => intro a ha; simpa using ha
    | cons b bs ih =>
      intro a _
      exact ih _ (Nat.mod_lt _ (by norm_num))
  exact h _ 0 (by norm_num)

theorem encode_length (off seed blockLen : Nat) :
    (encode off seed blockLen).length = max blockLen 20 := by
  simp [encode, length_bytesOfNat]
  omega

theorem bodyChecksum_encode (off seed blockLen : Nat) :
    bodyChecksum (encode off seed blockLen) =
      checksum (bytesOfNat 8 seed ++
        (bytesOfNat 8 off ++ (List.range (blockLen - 20)).map (fillerByte seed off))) := by
  unfold bodyChecksum encode
  have hlen : (bytesOfNat 8 seed ++
      (bytesOfNat 8 off ++ (List.range (blockLen - 20)).map (fillerByte seed off)) ++
      bytesOfNat 4 (checksum (bytesOfNat 8 seed ++
        (bytesOfNat 8 off ++ (List.range (blockLen - 20)).map (fillerByte seed off))))).length
      - 4 =
      (bytesOfNat 8 seed ++
        (bytesOfNat 8 off ++ (List.range (blockLen - 20)).map (fillerByte seed off))).length := by
    simp [length_bytesOfNat]
    omega
  simp only [hlen, List.take_left]

theorem storedChecksum_encode (off seed blockLen : Nat) :
    storedChecksum (encode off seed blockLen) =
      checksum (bytesOfNat 8 seed ++
        (bytesOfNat 8 off ++ (List.range (blockLen - 20)).map (fillerByte seed off))) := by
  unfold storedChecksum encode
  have hlen : (bytesOfNat 8 seed ++
      (bytesOfNat 8 off ++ (List.range (blockLen - 20)).map (fillerByte seed off)) ++
      bytesOfNat 4 (checksum (bytesOfNat 8 seed ++
        (bytesOfNat 8 off ++ (List.range (blockLen - 20)).map (fillerByte seed off))))).length
      - 4 =
      (bytesOfNat 8 seed ++
        (bytesOfNat 8 off ++ (List.range (blockLen - 20)).map (fillerByte seed off))).length := by
    simp [length_bytesOfNat]
    omega
  rw [hlen, List.drop_left, natOfBytes_bytesOfNat]
  exact Nat.mod_eq_of_lt (by exact_mod_cast checksum_lt _)

theorem drop_append_of_length (xs ys : List Nat) (n : Nat) (h : xs.length = n) :
    (xs ++ ys).drop n = ys := by
  subst h
  exact List.drop_left xs ys

theorem take_append_of_length (xs ys : List Nat) (n : Nat) (h : xs.length = n) :
    (xs ++ ys).take n = xs := by
  subst h
  exact List.take_left xs ys

theorem truncBody_length (off seed L : Nat) :
    (truncBody off seed L).length = L - 4 := by
  simp [truncBody, length_bytesOfNat]
  omega

theorem truncEncode_length (off seed L : Nat) :
    (truncEncode off seed L).length = L := by
  simp [truncEncode, truncBody_length, length_bytesOfNat]
  omega

theorem truncEncode_take (off seed L : Nat) :
    (truncEncode off seed L).take (L - 4) = truncBody off seed L := by
  unfold truncEncode
  exact take_append_of_length _ _ _ (truncBody_length off seed L)

theorem truncEncode_drop (off seed L : Nat) :
    (truncEncode off seed L).drop (L - 4) =
      (bytesOfNat 4 (checksum (truncBody off seed L))).take (min 4 L) := by
  unfold truncEncode
  exact drop_append_of_length _ _ _ (truncBody_length off seed L)

/-- The truncated payload of a short final block is self-consistent:
the checksum stored in its final bytes is the checksum of exactly the
payload bytes present before it, at every length. -/
theorem truncEncode_storedChecksum (off seed L : Nat) :
    storedChecksum (truncEncode off seed L) =
      checksum ((truncEncode off seed L).take (L - 4)) := by
  unfold storedChecksum
  rw [truncEncode_length, truncEncode_take, truncEncode_drop]
  by_cases h4 : 4 ≤ L
  · rw [Nat.min_eq_left h4,
      List.take_of_length_le (le_of_eq (length_bytesOfNat 4 _)),
      natOfBytes_bytesOfNat]
    exact Nat.mod_eq_of_lt (by exact_mod_cast checksum_lt _)
  · have hb0 : truncBody off seed L = [] :=
      List.length_eq_zero.mp (by rw [truncBody_length]; omega)
    rw [hb0, Nat.min_eq_right (by omega)]
    have hL : L = 0 ∨ L = 1 ∨ L = 2 ∨ L = 3 := by omega
    rcases hL with rfl | rfl | rfl | rfl <;> decide

theorem embeddedOffset_encode (off seed blockLen : Nat) :
    embeddedOffset (encode off seed blockLen) = off % 2 ^ 64 := by
  unfold embeddedOffset encode
  rw [List.append_assoc, List.append_assoc,
    drop_append_of_length _ _ 8 (length_bytesOfNat 8 seed),
    take_append_of_length _ _ 8 (length_bytesOfNat 8 off),
    natOfBytes_bytesOfNat]
  norm_num

/-- Round-trip: decoding an encoded payload succeeds with the original
offset, for any block length, any seed, and any offset below 2^64 (the
width of the embedded-offset field). -/
theorem decode_encode (off seed blockLen seed' blockLen' : Nat)
    (h : off < 2 ^ 64) :
    decode (encode off seed blockLen) seed' blockLen' = .ok off := by
  unfold decode
  rw [bodyChecksum_encode, storedChecksum_encode, if_pos rfl,
    embeddedOffset_encode, Nat.mod_eq_of_lt h]

/-- C1: for every offset `O` below the 64-bit width of the embedded
offset field, every run seed and every block size, decoding the
payload produced by encoding `O` with that seed and block size
returns `O`. -/
theorem C1_decode_encode_roundtrip (off seed bs : Nat) (h : off < 2 ^ 64) :
    decode (encode off seed bs) seed bs = .ok off :=
  decode_encode off seed bs seed bs h

theorem C1_decode_encode_roundtrip_witness :
    decode (encode 4096 7 32) 7 32 = Except.ok 4096 :=
  C1_decode_encode_roundtrip 4096 7 32 (by decide)

/-- C2: two distinct offsets within a run's address range (below the
64-bit width of the offset field) never encode to the same payload
under the same run seed and block size. -/
theorem C2_encode_injective (o1 o2 seed bs : Nat) (h1 : o1 < 2 ^ 64)
    (h2 : o2 < 2 ^ 64) (hne : o1 ≠ o2) :
    encode o1 seed bs ≠ encode o2 seed bs := by
  intro heq
  have e1 : decode (encode o1 seed bs) seed bs = .ok o1 :=
    decode_encode o1 seed bs seed bs h1
  have e2 : decode (encode o2 seed bs) seed bs = .ok o2 :=
    decode_encode o2 seed bs seed bs h2
  rw [heq, e2] at e1
  exact hne (Except.ok.inj e1).symm

theorem C2_encode_injective_witness :
    encode 0 7 20 ≠ encode 20 7 20 :=
  C2_encode_injective 0 20 7 20 (by decide) (by decide) (by decide)

/-- C3: decode reports `CorruptPayload` exactly when the recomputed
checksum differs from the checksum stored in the payload, and on a
checksum match it succeeds with the payload's embedded offset. -/
theorem C3_decode_checksum_cases (p : List Nat) (seed bs : Nat) :
    (decode p seed bs = .error DecodeError.CorruptPayload ↔
      bodyChecksum p ≠ storedChecksum p)
    ∧ (bodyChecksum p = storedChecksum p →
      decode p seed bs = .ok (embeddedOffset p)) := by
  unfold decode
  by_cases h : bodyChecksum p = storedChecksum p <;> simp [h]

theorem C3_decode_checksum_cases_witness :
    decode (encode 5 9 24) 9 24 = Except.ok (embeddedOffset (encode 5 9 24)) :=
  (C3_decode_checksum_cases (encode 5 9 24) 9 24).2 (by decide)

/-- C4: the verification pass assigns each read-back block exactly one
outcome by this case analysis: a failed read is `IoError`; a checksum
failure is `Corrupted`; a successful decode to the expected offset is
`Honest`; a successful decode to a different offset that was written
in this run is `Aliased` with that offset recorded as target. -/
theorem C4_verify_classification (written : List Nat)
    (seed bs expected o : Nat) (p : List Nat) :
    classify written seed bs expected none = BlockOutcome.IoError
    ∧ (decode p seed bs = .error DecodeError.CorruptPayload →
        classify written seed bs expected (some p) = BlockOutcome.Corrupted)
    ∧ (decode p seed bs = .ok expected →
        classify written seed bs expected (some p) = BlockOutcome.Honest)
    ∧ (decode p seed bs = .ok o → o ≠ expected → o ∈ written →
        classify written seed bs expected (some p) = BlockOutcome.Aliased o) := by
  refine ⟨rfl, ?_, ?_, ?_⟩
  · intro h
    simp [classify, h]
  · intro h
    simp [classify, h]
  · intro h hne hmem
    simp [classify, h, hne, hmem]

theorem C4_verify_classification_witness :
    classify [0, 20] 1 20 20 none = BlockOutcome.IoError
    ∧ classify [0, 20] 1 20 20 (some (List.replicate 20 1)) =
        BlockOutcome.Corrupted
    ∧ classify [0, 20] 1 20 0 (some (encode 0 1 20)) = BlockOutcome.Honest
    ∧ classify [0, 20] 1 20 20 (some (encode 0 1 20)) =
        BlockOutcome.Aliased 0 :=
  ⟨(C4_verify_classification [0, 20] 1 20 20 0 []).1,
   (C4_verify_classification [0, 20] 1 20 20 0 (List.replicate 20 1)).2.1
     (by decide),
   (C4_verify_classification [0, 20] 1 20 0 0 (encode 0 1 20)).2.2.1
     (by decide),
   (C4_verify_classification [0, 20] 1 20 20 0 (encode 0 1 20)).2.2.2
     (by decide) (by decide) (by decide)⟩

theorem aggregate_trueCapacity_of_no_alias (outs : List (Nat × BlockOutcome))
    (werrs : List Nat) (c : Bool) (nominal pc : Nat)
    (h : (aggregate outs werrs c nominal pc).aliasedList = []) :
    (aggregate outs werrs c nominal pc).trueCapacity = nominal := by
  have h' : aliasedOf outs = [] := h
  simp [aggregate, h']

/-- C6: whenever the verification pass records no `Aliased` outcome,
the Report's true usable capacity is the nominal size, whatever
`Corrupted` or `IoError` findings it also contains. -/
theorem C6_no_alias_true_capacity {σ : Type} (dev : Device σ)
    (seed bs size pc : Nat) (s : σ)
    (h : (runScan dev seed bs size pc s).report.aliasedList = []) :
    (runScan dev seed bs size pc s).report.trueCapacity = size := by
  by_cases hw :
      (writePass dev seed bs size s (blockOffsets size bs)).completed = true
  · simp only [runScan, hw, if_true] at h ⊢
    exact aggregate_trueCapacity_of_no_alias _ _ _ _ _ h
  · simp only [runScan, hw, if_false] at h ⊢
    exact aggregate_trueCapacity_of_no_alias _ _ _ _ _ h

theorem C6_no_alias_true_capacity_witness :
    (runScan corruptTailDevice 1 20 40 999 ()).report.trueCapacity = 40
    ∧ (runScan corruptTailDevice 1 20 40 999 ()).report.corruptedList = [20] :=
  ⟨C6_no_alias_true_capacity corruptTailDevice 1 20 40 999 () (by decide),
   by decide⟩

/-- C7: every per-block failure is recorded in the Report's material
and the pass continues with the remaining offsets — a failed write is
recorded as a write error, and a block that reads back as `IoError`,
`Corrupted` or `Aliased` gets exactly that outcome recorded while
verification of the rest continues unchanged; the run aborts only on
a fatal failure of the device handle itself, and even then (here a
handle death mid-verify, after one block was already verified) it
ends `Failed` with a partial Report carrying the work completed so
far. -/
theorem C7_per_block_failures_recorded {σ : Type} (dev : Device σ)
    (s1 s1' s2 s2' s3 s3' s4 s4' t0 t t' : σ)
    (seed bs size pc o1 o2 o3 o4 oa ob ta : Nat)
    (rest rest' written errw : List Nat) (d3 d4 da : List Nat)
    (hw : dev.writeAt s1 o1 (pattern seed size bs o1) = WriteRes.ioErr s1')
    (hr : dev.readAt s2 o2 (blockLen size bs o2) = ReadRes.ioErr s2')
    (hok3 : dev.readAt s3 o3 (blockLen size bs o3) = ReadRes.ok s3' d3)
    (hc3 : classify written seed bs o3 (some d3) = BlockOutcome.Corrupted)
    (hok4 : dev.readAt s4 o4 (blockLen size bs o4) = ReadRes.ok s4' d4)
    (hc4 : classify written seed bs o4 (some d4) = BlockOutcome.Aliased ta)
    (hoffs : blockOffsets size bs = oa :: ob :: rest')
    (hwall : writePass dev seed bs size t0 (blockOffsets size bs) =
      ⟨t, written, errw, true⟩)
    (ha : dev.readAt t oa (blockLen size bs oa) = ReadRes.ok t' da)
    (hb : dev.readAt t' ob (blockLen size bs ob) = ReadRes.fatal) :
    writePass dev seed bs size s1 (o1 :: rest) =
      ⟨(writePass dev seed bs size s1' rest).state,
       (writePass dev seed bs size s1' rest).okOffs,
       o1 :: (writePass dev seed bs size s1' rest).errOffs,
       (writePass dev seed bs size s1' rest).completed⟩
    ∧ verifyPass dev written seed bs size s2 (o2 :: rest) =
      ⟨(verifyPass dev written seed bs size s2' rest).state,
       (o2, BlockOutcome.IoError) ::
         (verifyPass dev written seed bs size s2' rest).outs,
       (verifyPass dev written seed bs size s2' rest).completed⟩
    ∧ verifyPass dev written seed bs size s3 (o3 :: rest) =
      ⟨(verifyPass dev written seed bs size s3' rest).state,
       (o3, BlockOutcome.Corrupted) ::
         (verifyPass dev written seed bs size s3' rest).outs,
       (verifyPass dev written seed bs size s3' rest).completed⟩
    ∧ verifyPass dev written seed bs size s4 (o4 :: rest) =
      ⟨(verifyPass dev written seed bs size s4' rest).state,
       (o4, BlockOutcome.Aliased ta) ::
         (verifyPass dev written seed bs size s4' rest).outs,
       (verifyPass dev written seed bs size s4' rest).completed⟩
    ∧ runScan dev seed bs size pc t0 =
      ⟨t', ScanState.Failed,
       aggregate [(oa, classify written seed bs oa (some da))] errw false
         size pc⟩ := by
  refine ⟨?_, ?_, ?_, ?_, ?_⟩
  · rw [writePass, hw]
  · rw [verifyPass, hr]
    rfl
  · rw [verifyPass, hok3]
    simp only [hc3]
  · rw [verifyPass, hok4]
    simp only [hc4]
  · have hwall' : writePass dev seed bs size t0 (oa :: ob :: rest') =
        ⟨t, written, errw, true⟩ := by
      rw [← hoffs]
      exact hwall
    have hv2 : verifyPass dev written seed bs size t' (ob :: rest') =
        ⟨t', [], false⟩ := by
      rw [verifyPass, hb]
    have hv1 : verifyPass dev written seed bs size t (oa :: ob :: rest') =
        ⟨t', [(oa, classify written seed bs oa (some da))], false⟩ := by
      rw [verifyPass, ha]
      simp only [hv2]
    simp only [runScan, hoffs, hwall', hv1]
    simp

theorem C7_per_block_failures_recorded_witness :
    writePass stagedDevice 1 20 40 10 [0, 20] =
      ⟨(writePass stagedDevice 1 20 40 10 [20]).state,
       (writePass stagedDevice 1 20 40 10 [20]).okOffs,
       0 :: (writePass stagedDevice 1 20 40 10 [20]).errOffs,
       (writePass stagedDevice 1 20 40 10 [20]).completed⟩
    ∧ verifyPass stagedDevice [0, 20] 1 20 40 10 [0, 20] =
      ⟨(verifyPass stagedDevice [0, 20] 1 20 40 10 [20]).state,
       (0, BlockOutcome.IoError) ::
         (verifyPass stagedDevice [0, 20] 1 20 40 10 [20]).outs,
       (verifyPass stagedDevice [0, 20] 1 20 40 10 [20]).completed⟩
    ∧ verifyPass stagedDevice [0, 20] 1 20 40 11 [0, 20] =
      ⟨(verifyPass stagedDevice [0, 20] 1 20 40 11 [20]).state,
       (0, BlockOutcome.Corrupted) ::
         (verifyPass stagedDevice [0, 20] 1 20 40 11 [20]).outs,
       (verifyPass stagedDevice [0, 20] 1 20 40 11 [20]).completed⟩
    ∧ verifyPass stagedDevice [0, 20] 1 20 40 12 [20, 20] =
      ⟨(verifyPass stagedDevice [0, 20] 1 20 40 12 [20]).state,
       (20, BlockOutcome.Aliased 0) ::
         (verifyPass stagedDevice [0, 20] 1 20 40 12 [20]).outs,
       (verifyPass stagedDevice [0, 20] 1 20 40 12 [20]).completed⟩
    ∧ runScan stagedDevice 1 20 40 7 0 =
      ⟨3, ScanState.Failed,
       aggregate [(0, classify [0, 20] 1 20 0 (some (encode 0 1 20)))] []
         false 40 7⟩ :=
  C7_per_block_failures_recorded stagedDevice 10 10 10 10 11 11 12 12 0 2 3
    1 20 40 7 0 0 0 20 0 20 0 [20] [] [0, 20] [] (List.replicate 20 1)
    (encode 0 1 20) (encode 0 1 20)
    rfl rfl rfl (by decide) rfl (by decide) (by decide) rfl rfl rfl

theorem verifyPass_of_honest {σ : Type} (dev : Device σ)
    (written : List Nat) (seed bs size : Nat) (s : σ)
    (h : HonestOn dev seed bs size s) :
    ∀ l, (∀ o ∈ l, o ∈ blockOffsets size bs) →
      verifyPass dev written seed bs size s l =
        ⟨s, l.map (fun o =>
          (o, classify written seed bs o (some (pattern seed size bs o)))),
         true⟩ := by
  intro l
  induction l with
  | nil => intro _; rfl
  | cons o rest ih =>
    intro hsub
    have ho := h o (hsub o (by simp))
    rw [verifyPass, ho]
    simp only [ih (fun x hx => hsub x (by simp [hx])), List.map_cons]

/-- C8: verify-only mode on an untouched, honest device is
side-effect-free (the device state is unchanged) and running it twice
in succession yields two identical Reports. -/
theorem C8_verify_only_idempotent {σ : Type} (dev : Device σ)
    (seed bs size pc : Nat) (s : σ) (h : HonestOn dev seed bs size s) :
    (runVerifyOnly dev seed bs size pc s).1 = s
    ∧ (runVerifyOnly dev seed bs size pc
        ((runVerifyOnly dev seed bs size pc s).1)).2 =
      (runVerifyOnly dev seed bs size pc s).2 := by
  have hv := verifyPass_of_honest dev (blockOffsets size bs) seed bs size s h
    (blockOffsets size bs) (fun _ hx => hx)
  have h1 : (runVerifyOnly dev seed bs size pc s).1 = s := by
    simp only [runVerifyOnly, hv]
  exact ⟨h1, by rw [h1]⟩

theorem C8_verify_only_idempotent_witness :
    (runVerifyOnly (honestDevice 20) 3 20 40 999 honestState).1 = honestState
    ∧ (runVerifyOnly (honestDevice 20) 3 20 40 999
        ((runVerifyOnly (honestDevice 20) 3 20 40 999 honestState).1)).2 =
      (runVerifyOnly (honestDevice 20) 3 20 40 999 honestState).2 :=
  C8_verify_only_idempotent (honestDevice 20) 3 20 40 999 honestState
    (by
      intro o ho
      have hoffs : blockOffsets 40 20 = [0, 20] := rfl
      rw [hoffs] at ho
      simp only [List.mem_cons, List.not_mem_nil, or_false] at ho
      rcases ho with rfl | rfl <;> rfl)

theorem lt_nBlocks_iff {size bs i : Nat} (hbs : 0 < bs) :
    i < (size + bs - 1) / bs ↔ i * bs < size := by
  rw [Nat.lt_iff_add_one_le, Nat.le_div_iff_mul_le hbs]
  have h : (i + 1) * bs = i * bs + bs := by ring
  rw [h]
  omega

theorem mem_blockOffsets {size bs o : Nat} (hbs : 0 < bs) :
    o ∈ blockOffsets size bs ↔ ∃ i, o = i * bs ∧ i * bs < size := by
  unfold blockOffsets
  simp only [List.mem_map, List.mem_range]
  constructor
  · rintro ⟨i, hi, rfl⟩
    exact ⟨i, rfl, (lt_nBlocks_iff hbs).mp hi⟩
  · rintro ⟨i, rfl, hlt⟩
    exact ⟨i, (lt_nBlocks_iff hbs).mpr hlt, rfl⟩

/-- C9: for every device size -- multiples of the block size and sizes
with any short final remainder (1 byte up) alike -- every block of the
run gets a payload of exactly its (possibly truncated) block length
whose stored checksum covers exactly the bytes present before it, and
neither the write of that payload nor the corresponding read reaches
past the device's bounds.  Only the block size itself is assumed to
hold the 20-byte header and checksum (block sizes are >= 512 per
section 3). -/
theorem C9_short_final_block (seed size bs : Nat) (hbs : 20 <= bs) :
    ∀ o ∈ blockOffsets size bs,
      (pattern seed size bs o).length = blockLen size bs o
      ∧ storedChecksum (pattern seed size bs o) =
          checksum ((pattern seed size bs o).take (blockLen size bs o - 4))
      ∧ o + (pattern seed size bs o).length <= size
      ∧ o + blockLen size bs o <= size := by
  intro o ho
  obtain ⟨i, rfl, hlt⟩ := (mem_blockOffsets (by omega : 0 < bs)).mp ho
  by_cases hshort : size - i * bs < bs
  · have hL : blockLen size bs (i * bs) = size - i * bs :=
      Nat.min_eq_right (Nat.le_of_lt hshort)
    have hpat : pattern seed size bs (i * bs) =
        truncEncode (i * bs) seed (size - i * bs) := by
      unfold pattern
      rw [if_pos hshort, hL]
    rw [hpat, hL, truncEncode_length]
    exact ⟨rfl, truncEncode_storedChecksum _ _ _, by omega, by omega⟩
  · have hL : blockLen size bs (i * bs) = bs :=
      Nat.min_eq_left (by omega)
    have hpat : pattern seed size bs (i * bs) = encode (i * bs) seed bs := by
      unfold pattern
      rw [if_neg hshort, hL]
    have hlen : (encode (i * bs) seed bs).length = bs := by
      rw [encode_length]
      omega
    rw [hpat, hL, hlen]
    refine ⟨rfl, ?_, by omega, by omega⟩
    rw [storedChecksum_encode]
    have hb : (bytesOfNat 8 seed ++ (bytesOfNat 8 (i * bs) ++
        (List.range (bs - 20)).map (fillerByte seed (i * bs)))).length =
        bs - 4 := by
      simp [length_bytesOfNat]
      omega
    conv_rhs =>
      rw [encode]
    rw [take_append_of_length _ _ _ hb]

theorem nBlocks_exact (Nb bs : Nat) (hbs : 0 < bs) :
    (Nb * bs + bs - 1) / bs = Nb := by
  have h1 : Nb * bs + bs - 1 = bs * Nb + (bs - 1) := by
    have := Nat.mul_comm Nb bs
    omega
  rw [h1, Nat.mul_add_div hbs, Nat.div_eq_of_lt (by omega)]
  omega

theorem blockOffsets_exact (Nb bs : Nat) (hbs : 0 < bs) :
    blockOffsets (Nb * bs) bs = (List.range Nb).map (fun i => i * bs) := by
  unfold blockOffsets
  rw [nBlocks_exact Nb bs hbs]

theorem blockLen_full {Nb bs i : Nat} (hbs : 0 < bs) (hi : i < Nb) :
    blockLen (Nb * bs) bs (i * bs) = bs := by
  unfold blockLen
  have h1 : (i + 1) * bs ≤ Nb * bs := Nat.mul_le_mul_right bs hi
  have h2 : (i + 1) * bs = i * bs + bs := by ring
  rw [Nat.min_eq_left (by omega)]

theorem wrap_writePass (Cb bs seed Nb : Nat) (hbs : 0 < bs) :
    ∀ (l : List Nat) (s : Nat → Option (List Nat)), (∀ i ∈ l, i < Nb) →
      (∀ p, (writePass (wrapDevice Cb bs) seed bs (Nb * bs) s
          (l.map (fun i => i * bs))).state p =
        if p ∈ l ∧ p < Cb then some (encode (p * bs) seed bs) else s p)
      ∧ (writePass (wrapDevice Cb bs) seed bs (Nb * bs) s
          (l.map (fun i => i * bs))).okOffs = l.map (fun i => i * bs)
      ∧ (writePass (wrapDevice Cb bs) seed bs (Nb * bs) s
          (l.map (fun i => i * bs))).errOffs = []
      ∧ (writePass (wrapDevice Cb bs) seed bs (Nb * bs) s
          (l.map (fun i => i * bs))).completed = true := by
  intro l
  induction l with
  | nil =>
    intro s _
    refine ⟨fun p => ?_, rfl, rfl, rfl⟩
    simp [writePass]
  | cons i l ih =>
    intro s hmem
    have hi : i < Nb := hmem i (by simp)
    have hpat : pattern seed (Nb * bs) bs (i * bs) =
        encode (i * bs) seed bs := by
      have hfull : ¬Nb * bs - i * bs < bs := by
        have h1 : (i + 1) * bs ≤ Nb * bs := Nat.mul_le_mul_right bs hi
        have h2 : (i + 1) * bs = i * bs + bs := by ring
        omega
      unfold pattern
      rw [if_neg hfull, blockLen_full hbs hi]
    have hdiv : i * bs / bs = i := Nat.mul_div_cancel i hbs
    have hstep : (wrapDevice Cb bs).writeAt s (i * bs)
        (pattern seed (Nb * bs) bs (i * bs)) =
        if i < Cb then
          WriteRes.ok (fun p =>
            if p = i then some (encode (i * bs) seed bs) else s p)
        else WriteRes.ok s := by
      simp only [wrapDevice, hpat, hdiv]
    by_cases hic : i < Cb
    · rw [if_pos hic] at hstep
      rw [List.map_cons, writePass, hstep]
      obtain ⟨hstate, hok, herr, hcomp⟩ := ih
        (fun p => if p = i then some (encode (i * bs) seed bs) else s p)
        (fun x hx => hmem x (by simp [hx]))
      refine ⟨fun p => ?_, by simp [hok], herr, hcomp⟩
      rw [hstate p]
      by_cases hpl : p ∈ l ∧ p < Cb
      · rw [if_pos hpl, if_pos ⟨by simp [hpl.1], hpl.2⟩]
      · rw [if_neg hpl]
        by_cases hpi : p = i
        · subst hpi
          rw [if_pos rfl, if_pos ⟨by simp, hic⟩]
        · rw [if_neg hpi, if_neg (by
            rintro ⟨hmem', hlt'⟩
            rcases List.mem_cons.mp hmem' with h | h
            · exact hpi h
            · exact hpl ⟨h, hlt'⟩)]
    · rw [if_neg hic] at hstep
      rw [List.map_cons, writePass, hstep]
      obtain ⟨hstate, hok, herr, hcomp⟩ := ih s
        (fun x hx => hmem x (by simp [hx]))
      refine ⟨fun p => ?_, by simp [hok], herr, hcomp⟩
      rw [hstate p]
      by_cases hpl : p ∈ l ∧ p < Cb
      · rw [if_pos hpl, if_pos ⟨by simp [hpl.1], hpl.2⟩]
      · rw [if_neg hpl, if_neg (by
          rintro ⟨hmem', hlt'⟩
          rcases List.mem_cons.mp hmem' with h | h
          · subst h
            exact hic hlt'
          · exact hpl ⟨h, hlt'⟩)]

theorem wrap_verifyPass (Cb bs seed Nb : Nat) (hbs : 0 < bs) (hCb : 0 < Cb)
    (hN : Nb * bs ≤ 2 ^ 64) (written : List Nat)
    (hwr : ∀ j, j < Nb → j * bs ∈ written)
    (s : Nat → Option (List Nat))
    (hs : ∀ p, p < Cb → s p = some (encode (p * bs) seed bs)) :
    ∀ l : List Nat, (∀ i ∈ l, i < Nb) →
      verifyPass (wrapDevice Cb bs) written seed bs (Nb * bs) s
          (l.map (fun i => i * bs)) =
        ⟨s, l.map (fun i => (i * bs,
            if i < Cb then BlockOutcome.Honest
            else BlockOutcome.Aliased ((i % Cb) * bs))), true⟩ := by
  intro l
  induction l with
  | nil => intro _; rfl
  | cons i l ih =>
    intro hmem
    have hi : i < Nb := hmem i (by simp)
    have hdiv : i * bs / bs = i := Nat.mul_div_cancel i hbs
    have hlt64 : (i % Cb) * bs < 2 ^ 64 := by
      have h1 : i % Cb ≤ i := Nat.mod_le i Cb
      have h2 : (i % Cb) * bs ≤ i * bs := Nat.mul_le_mul_right bs h1
      have h3 : (i + 1) * bs ≤ Nb * bs := Nat.mul_le_mul_right bs hi
      have h4 : (i + 1) * bs = i * bs + bs := by ring
      omega
    have hread : (wrapDevice Cb bs).readAt s (i * bs)
        (blockLen (Nb * bs) bs (i * bs)) =
        ReadRes.ok s (encode ((i % Cb) * bs) seed bs) := by
      simp only [wrapDevice, hdiv]
      rw [hs (i % Cb) (Nat.mod_lt i hCb)]
    rw [List.map_cons, verifyPass, hread]
    have hih := ih (fun x hx => hmem x (by simp [hx]))
    have hdec : decode (encode ((i % Cb) * bs) seed bs) seed bs =
        .ok ((i % Cb) * bs) :=
      decode_encode _ _ _ _ _ hlt64
    by_cases hic : i < Cb
    · have hmod : i % Cb = i := Nat.mod_eq_of_lt hic
      have hcl : classify written seed bs (i * bs)
          (some (encode ((i % Cb) * bs) seed bs)) = BlockOutcome.Honest := by
        rw [hmod] at hdec ⊢
        simp [classify, hdec]
      simp [hih, hcl, hic]
    · have hne : (i % Cb) * bs ≠ i * bs := by
        have h1 : i % Cb < Cb := Nat.mod_lt i hCb
        have h2 : i % Cb < i := by omega
        exact Nat.ne_of_lt ((Nat.mul_lt_mul_right hbs).mpr h2)
      have hcl : classify written seed bs (i * bs)
          (some (encode ((i % Cb) * bs) seed bs)) =
          BlockOutcome.Aliased ((i % Cb) * bs) := by
        have hin : (i % Cb) * bs ∈ written :=
          hwr (i % Cb) (by
            have := Nat.mod_lt i hCb
            omega)
        simp [classify, hdec, hne, hin]
      simp [hih, hcl, hic]

/-- The Capacity Prober's search converges: when a state invariant
`I` guarantees that a probe at block `b` answers exactly "is `b` at or
beyond the capacity boundary `K`" and is preserved by probing, the
threaded binary search over `[lo, hi]` returns `K` whenever
`lo ≤ K ≤ hi`. -/
theorem probeSearch_eq {σ : Type} (probe : σ → Nat → Bool × σ)
    (I : σ → Prop) (K H : Nat)
    (hprobe : ∀ s b, I s → b < H →
      (probe s b).1 = decide (K ≤ b) ∧ I (probe s b).2) :
    ∀ n lo hi s, hi - lo ≤ n → hi ≤ H → I s → lo ≤ K → K ≤ hi →
      (probeSearch probe s lo hi).1 = K := by
  intro n
  induction n with
  | zero =>
    intro lo hi s h1 hH hI h2 h3
    have hnl : ¬lo < hi := by omega
    rw [probeSearch, if_neg hnl]
    show lo = K
    omega
  | succ n ih =>
    intro lo hi s h1 hH hI h2 h3
    by_cases hlh : lo < hi
    · rw [probeSearch, if_pos hlh]
      obtain ⟨hfst, hnext⟩ := hprobe s ((lo + hi) / 2) hI (by omega)
      by_cases hk : K ≤ (lo + hi) / 2
      · have ht : (probe s ((lo + hi) / 2)).1 = true := by
          rw [hfst]
          simpa using hk
        rw [ht, if_pos rfl]
        exact ih lo ((lo + hi) / 2) _ (by omega) (by omega) hnext h2 hk
      · have ht : (probe s ((lo + hi) / 2)).1 = false := by
          rw [hfst]
          simpa using hk
        rw [ht]
        simp only [Bool.false_eq_true, if_false]
        exact ih ((lo + hi) / 2 + 1) hi _ (by omega) hH hnext (by omega) h3
    · rw [probeSearch, if_neg hlh]
      show lo = K
      omega

theorem wrap_probeBlock (Cb bs probeSeed Nb : Nat) (hbs : 0 < bs)
    (hCb : 0 < Cb) (hN : Nb * bs ≤ 2 ^ 64) :
    ∀ s b, ProbeInv Cb bs probeSeed s → b < Nb →
      (probeBlock (wrapDevice Cb bs) probeSeed bs s b).1 = decide (Cb ≤ b)
      ∧ ProbeInv Cb bs probeSeed
          (probeBlock (wrapDevice Cb bs) probeSeed bs s b).2 := by
  intro s b hI hb
  have hdiv : b * bs / bs = b := Nat.mul_div_cancel b hbs
  have hlt64 : b * bs < 2 ^ 64 := by
    have h3 : (b + 1) * bs ≤ Nb * bs := Nat.mul_le_mul_right bs hb
    have h4 : (b + 1) * bs = b * bs + bs := by ring
    omega
  by_cases hbc : b < Cb
  · have hmod : b % Cb = b := Nat.mod_eq_of_lt hbc
    have hwrite : (wrapDevice Cb bs).writeAt s (b * bs)
        (encode (b * bs) probeSeed bs) =
        WriteRes.ok (fun p =>
          if p = b then some (encode (b * bs) probeSeed bs) else s p) := by
      simp only [wrapDevice, hdiv]
      rw [if_pos hbc]
    have hread : (wrapDevice Cb bs).readAt
        (fun p => if p = b then some (encode (b * bs) probeSeed bs) else s p)
        (b * bs) bs =
        ReadRes.ok
          (fun p => if p = b then some (encode (b * bs) probeSeed bs) else s p)
          (encode (b * bs) probeSeed bs) := by
      simp only [wrapDevice, hdiv, hmod]
      simp
    unfold probeBlock
    rw [hwrite]
    simp only [hread, decode_encode _ _ _ _ _ hlt64]
    constructor
    · simp [hbc]
    · intro p hp
      by_cases hpb : p = b
      · subst hpb
        exact ⟨encode (p * bs) probeSeed bs, by simp,
          decode_encode _ _ _ _ _ hlt64⟩
      · obtain ⟨d, hd, hdec⟩ := hI p hp
        exact ⟨d, by simp [hpb, hd], hdec⟩
  · have hwrite : (wrapDevice Cb bs).writeAt s (b * bs)
        (encode (b * bs) probeSeed bs) = WriteRes.ok s := by
      simp only [wrapDevice, hdiv]
      rw [if_neg hbc]
    obtain ⟨d, hd, hdec⟩ := hI (b % Cb) (Nat.mod_lt b hCb)
    have hread : (wrapDevice Cb bs).readAt s (b * bs) bs =
        ReadRes.ok s d := by
      simp only [wrapDevice, hdiv]
      rw [hd]
    have hne : (b % Cb) * bs ≠ b * bs := by
      have h1 : b % Cb < Cb := Nat.mod_lt b hCb
      have h2 : b % Cb < b := by omega
      exact Nat.ne_of_lt ((Nat.mul_lt_mul_right hbs).mpr h2)
    unfold probeBlock
    rw [hwrite]
    simp only [hread, hdec]
    constructor
    · simp [hne]
      omega
    · exact hI

theorem wrap_capacityProber (Cb Nb bs probeSeed : Nat) (hbs : 0 < bs)
    (hCb : 0 < Cb) (hCbN : Cb ≤ Nb) (hN : Nb * bs ≤ 2 ^ 64)
    (s : Nat → Option (List Nat)) (hs : ProbeInv Cb bs probeSeed s) :
    capacityProber (wrapDevice Cb bs) probeSeed bs Nb s = Cb * bs := by
  unfold capacityProber
  have h := probeSearch_eq (probeBlock (wrapDevice Cb bs) probeSeed bs)
    (ProbeInv Cb bs probeSeed) Cb Nb
    (wrap_probeBlock Cb bs probeSeed Nb hbs hCb hN)
    Nb 0 Nb s (by omega) le_rfl hs (by omega) hCbN
  rw [h]

theorem wrap_runScan (Cb Nb bs seed pc : Nat) (hbs : 0 < bs) (hCb : 0 < Cb)
    (hCbN : Cb ≤ Nb) (hN : Nb * bs ≤ 2 ^ 64) :
    (runScan (wrapDevice Cb bs) seed bs (Nb * bs) pc
        (fun _ => none)).report.outcomes =
      (List.range Nb).map (fun i => (i * bs,
        if i < Cb then BlockOutcome.Honest
        else BlockOutcome.Aliased ((i % Cb) * bs)))
    ∧ (runScan (wrapDevice Cb bs) seed bs (Nb * bs) pc
        (fun _ => none)).phase = ScanState.Done
    ∧ ∀ p, p < Cb →
      (runScan (wrapDevice Cb bs) seed bs (Nb * bs) pc
          (fun _ => none)).finalState p = some (encode (p * bs) seed bs) := by
  have hoffs : blockOffsets (Nb * bs) bs =
      (List.range Nb).map (fun i => i * bs) := blockOffsets_exact Nb bs hbs
  obtain ⟨hstate, hok, herr, hcomp⟩ :=
    wrap_writePass Cb bs seed Nb hbs (List.range Nb) (fun _ => none)
      (fun i hi => List.mem_range.mp hi)
  set w := writePass (wrapDevice Cb bs) seed bs (Nb * bs) (fun _ => none)
    ((List.range Nb).map (fun i => i * bs)) with hw
  have hs : ∀ p, p < Cb → w.state p = some (encode (p * bs) seed bs) := by
    intro p hp
    rw [hstate p, if_pos ⟨List.mem_range.mpr (by omega), hp⟩]
  have hwr : ∀ j, j < Nb → j * bs ∈ w.okOffs := by
    intro j hj
    rw [hok]
    exact List.mem_map.mpr ⟨j, List.mem_range.mpr hj, rfl⟩
  have hv := wrap_verifyPass Cb bs seed Nb hbs hCb hN w.okOffs hwr w.state hs
    (List.range Nb) (fun i hi => List.mem_range.mp hi)
  simp only [runScan, hoffs, ← hw, hcomp, if_true, hv]
  refine ⟨by trivial, by trivial, hs⟩

/-- C5: on the simulated device of true capacity `C = Cb * bs` bytes
inside a nominal size of `Nb * bs` bytes, the full write-then-verify
scan reports `Aliased` (with the wrapped lower offset as target) for
every block at or beyond `C`, and the Capacity Prober's binary search,
run on the post-scan device, converges to exactly `C` as the true
usable capacity. -/
theorem C5_wrap_device_aliasing_and_capacity
    (Cb Nb bs seed probeSeed pc : Nat) (hbs : 0 < bs) (hCb : 0 < Cb)
    (hCbN : Cb ≤ Nb) (hN : Nb * bs ≤ 2 ^ 64) :
    (∀ i, Cb ≤ i → i < Nb →
      (i * bs, BlockOutcome.Aliased ((i % Cb) * bs)) ∈
        (runScan (wrapDevice Cb bs) seed bs (Nb * bs) pc
            (fun _ => none)).report.outcomes)
    ∧ capacityProber (wrapDevice Cb bs) probeSeed bs Nb
        (runScan (wrapDevice Cb bs) seed bs (Nb * bs) pc
            (fun _ => none)).finalState = Cb * bs := by
  obtain ⟨houts, hphase, hstate⟩ := wrap_runScan Cb Nb bs seed pc hbs hCb hCbN hN
  constructor
  · intro i hci hiN
    rw [houts]
    refine List.mem_map.mpr ⟨i, List.mem_range.mpr hiN, ?_⟩
    rw [if_neg (by omega)]
  · refine wrap_capacityProber Cb Nb bs probeSeed hbs hCb hCbN hN _ ?_
    intro p hp
    refine ⟨encode (p * bs) seed bs, hstate p hp,
      decode_encode _ _ _ _ _ ?_⟩
    have h3 : (p + 1) * bs ≤ Nb * bs := Nat.mul_le_mul_right bs (by omega)
    have h4 : (p + 1) * bs = p * bs + bs := by ring
    omega

theorem C5_wrap_device_aliasing_and_capacity_witness :
    (40, BlockOutcome.Aliased 0) ∈
      (runScan (wrapDevice 2 20) 1 20 80 0
          (fun _ => none)).report.outcomes
    ∧ capacityProber (wrapDevice 2 20) 9 20 4
        (runScan (wrapDevice 2 20) 1 20 80 0
            (fun _ => none)).finalState = 40 :=
  ⟨(C5_wrap_device_aliasing_and_capacity 2 4 20 1 9 0 (by decide) (by decide)
      (by decide) (by decide)).1 2 (by decide) (by decide),
   (C5_wrap_device_aliasing_and_capacity 2 4 20 1 9 0 (by decide) (by decide)
      (by decide) (by decide)).2⟩

/-- C10: `src/setup.py` passes only distribution metadata plus
`scripts=["honestbt"]`, declaring no packages, modules or entry
points, and the `src/` tree holds no file besides `setup.py` — in
particular no Python implementation of the codec, generator, scan
driver, prober or aggregator. -/
theorem C10_setup_metadata_only :
    honestbtSetup.name = "honestbt"
    ∧ honestbtSetup.description =
        "Destructive tester which detects dishonest block devices"
    ∧ honestbtSetup.license = "GPLv2+"
    ∧ honestbtSetup.platforms = ["Unix"]
    ∧ honestbtSetup.author = "Ryan Finnie"
    ∧ honestbtSetup.authorEmail = "ryan@finnie.org"
    ∧ honestbtSetup.scripts = ["honestbt"]
    ∧ honestbtSetup.packages = []
    ∧ honestbtSetup.pyModules = []
    ∧ honestbtSetup.entryPoints = []
    ∧ srcFiles = ["setup.py"]
    ∧ ∀ f ∈ srcFiles, f = "setup.py" := by
  refine ⟨rfl, rfl, rfl, rfl, rfl, rfl, rfl, rfl, rfl, rfl, rfl, ?_⟩
  intro f hf
  simpa [srcFiles] using hf

theorem C9_short_final_block_witness :
    (pattern 1 25 20 20).length = blockLen 25 20 20
    ∧ storedChecksum (pattern 1 25 20 20) =
        checksum ((pattern 1 25 20 20).take (blockLen 25 20 20 - 4))
    ∧ 20 + (pattern 1 25 20 20).length ≤ 25
    ∧ 20 + blockLen 25 20 20 ≤ 25 :=
  C9_short_final_block 1 25 20 (by decide) 20 (by decide)

end HonestBT
